import Mathlib

/-!
Verification development for the ChainIQ supply-chain tracking subsystem.

The repository's reconciliation/state-machine layer (Live Tracking Overlay,
Webhook Ingestion State Machine, Hydration Service, Analytics Aggregator) is
not present as isolated source; those components are modelled here from the
specification's component design (spec §§3–4).  The React context hooks
(`useAuth`, `usePersona`) and the `AuthProvider` mount effect are embedded
directly from the frontend source files.
-/

namespace ChainIQ

/-- Status of a single step-progress entry (spec §3, Progress State). -/
inductive StepStatus where
  | PENDING
  | COMPLETED
deriving DecidableEq, Repr

/-- Modelled from the spec: a Step Definition of the Step Catalog —
step name and nominal duration (spec §3, Step Definition). -/
structure StepDef where
  name : String
  nominal : Nat
deriving DecidableEq, Repr

/-- Modelled from the spec: one Step Progress entry — status, completion
timestamp (set once), and the actor-reported payload (spec §3). -/
structure StepProgress where
  status : StepStatus
  ts : Option Nat
  payload : String
deriving DecidableEq, Repr

/-- Modelled from the spec: the overlay's value type — an ordered sequence of
Step Progress entries mirroring the Step Catalog for the order's type. -/
structure ProgressState where
  orderType : String
  steps : List StepProgress
deriving DecidableEq, Repr

/-- Order lifecycle status (spec §3, Order). -/
inductive OrderStatus where
  | PENDING
  | IN_PROGRESS
  | COMPLETED
  | CANCELLED
deriving DecidableEq, Repr

/-- Modelled from the spec: a persisted Order record in the Persistent Order
Store — supplier, order type, placement timestamp, status, batch ID (assigned
on acceptance), per-step completion timestamps, finish timestamp (spec §3). -/
structure OrderRec where
  supplierId : String
  orderType : String
  placedTs : Nat
  status : OrderStatus
  batchId : Option String
  stepTs : List (Option Nat)
  finishTs : Option Nat
deriving DecidableEq, Repr

/-- Error taxonomy of the webhook / acceptance interfaces (spec §7). -/
inductive Err where
  | UnknownBatch
  | UnknownStep
  | OutOfOrderStep
  | AlreadyAccepted
  | AlreadyExists
  | UnknownOrder
deriving DecidableEq, Repr

/-- The Live Tracking Overlay: in-memory mapping from batch ID to Progress
State (spec §3.3), modelled as an association list. -/
abbrev Overlay := List (String × ProgressState)

/-- The Persistent Order Store: durable record of orders keyed by order ID
(spec §2, component 1), modelled as an association list. -/
abbrev Store := List (String × OrderRec)

/-- Combined system state: overlay plus persistent store. -/
structure Sys where
  overlay : Overlay
  store : Store
deriving DecidableEq, Repr

/-- Lookup of a batch in the overlay. -/
def ovLookup : Overlay → String → Option ProgressState
  | [], _ => none
  | q :: rest, b => if q.1 = b then some q.2 else ovLookup rest b

/-- Replace the Progress State stored under a batch ID. -/
def ovUpdate (ov : Overlay) (b : String) (ps : ProgressState) : Overlay :=
  ov.map fun q => if q.1 = b then (b, ps) else q

/-- Lookup of an order in the persistent store. -/
def stLookup : Store → String → Option OrderRec
  | [], _ => none
  | q :: rest, oid => if q.1 = oid then some q.2 else stLookup rest oid

/-- Overwrite an order record in the persistent store. -/
def stSet (st : Store) (oid : String) (o : OrderRec) : Store :=
  st.map fun q => if q.1 = oid then (oid, o) else q

/-- Modelled from the spec: resolve a step name to its positional index in
the Step Catalog for the order's type (spec §4.3 step 2). -/
def resolveStep (catalog : List StepDef) (stepName : String) : Option Nat :=
  catalog.findIdx? fun d => d.name = stepName

/-- Whether the step at position `i` of a Progress State is COMPLETED. -/
def stepCompleted (ps : ProgressState) (i : Nat) : Bool :=
  match ps.steps[i]? with
  | some e => e.status = .COMPLETED
  | none => false

/-- Whether every step of a Progress State is COMPLETED. -/
def allCompleted (ps : ProgressState) : Bool :=
  ps.steps.all fun e => e.status = .COMPLETED

/-- Modelled from the spec: mark step `i` COMPLETED with the current timestamp,
storing the event payload (spec §4.3 step 5). -/
def markStep (ps : ProgressState) (i : Nat) (now : Nat) (payload : String) :
    ProgressState :=
  { ps with steps := ps.steps.set i ⟨.COMPLETED, some now, payload⟩ }

/-- Modelled from the spec: the flush path — transition the owning Order
(the one carrying this batch ID) to COMPLETED in the Persistent Order Store,
in a single write that also sets the finish timestamp and the per-step
completion timestamps (spec §4.3 step 6, §4.4 side effect in §4.1). -/
def flushCompleted (st : Store) (b : String) (ps : ProgressState) (now : Nat) :
    Store :=
  st.map fun q =>
    if q.2.batchId = some b then
      (q.1, { q.2 with
                status := .COMPLETED
                finishTs := some now
                stepTs := ps.steps.map (·.ts) })
    else q

/-- Modelled from the spec: a freshly seeded Progress State — all entries
PENDING, mirroring the Step Catalog for the order's type (spec §3, §4.1). -/
def seedProgress (catalog : List StepDef) (orderType : String) : ProgressState :=
  ⟨orderType, catalog.map fun _ => ⟨.PENDING, none, ""⟩⟩

/-- Modelled from the spec: the Webhook Ingestion State Machine's `apply`
(spec §4.3).  Returns the result reported to the caller together with the
(possibly mutated) system state:
1. unknown batch is rejected with `UnknownBatch`;
2. unknown step name is rejected with `UnknownStep`;
3. an already-COMPLETED step is an accepted no-op returning the state
   unchanged;
4. a step whose positional predecessor is not COMPLETED is rejected with
   `OutOfOrderStep`;
5. otherwise the step is marked COMPLETED with the current timestamp;
6. if that completed the last step, the owning Order is flushed to the
   Persistent Order Store before returning. -/
def applyEvent (cat : String → List StepDef) (sys : Sys)
    (batchId stepName payload : String) (now : Nat) :
    Except Err ProgressState × Sys :=
  match ovLookup sys.overlay batchId with
  | none => (.error .UnknownBatch, sys)
  | some ps =>
    match resolveStep (cat ps.orderType) stepName with
    | none => (.error .UnknownStep, sys)
    | some i =>
      if stepCompleted ps i then (.ok ps, sys)
      else if i != 0 && !(stepCompleted ps (i - 1)) then
        (.error .OutOfOrderStep, sys)
      else if allCompleted (markStep ps i now payload) then
        (.ok (markStep ps i now payload),
          ⟨ovUpdate sys.overlay batchId (markStep ps i now payload),
            flushCompleted sys.store batchId (markStep ps i now payload) now⟩)
      else
        (.ok (markStep ps i now payload),
          ⟨ovUpdate sys.overlay batchId (markStep ps i now payload),
            sys.store⟩)

/-- Modelled from the spec: the overlay `seed` operation — fails with
`AlreadyExists` if the batch ID is already present (spec §4.1). -/
def seed (cat : String → List StepDef) (sys : Sys)
    (batchId orderType : String) : Except Err ProgressState × Sys :=
  if (ovLookup sys.overlay batchId).isSome then (.error .AlreadyExists, sys)
  else
    (.ok (seedProgress (cat orderType) orderType),
      ⟨(batchId, seedProgress (cat orderType) orderType) :: sys.overlay,
        sys.store⟩)

/-- Modelled from the spec: the acceptance action — given an order ID, assigns
a batch ID, transitions the Order to IN_PROGRESS and seeds the overlay; fails
with `AlreadyAccepted` if the order is not PENDING (spec §6). -/
def accept (cat : String → List StepDef) (sys : Sys)
    (orderId batchId : String) : Except Err ProgressState × Sys :=
  match stLookup sys.store orderId with
  | none => (.error .UnknownOrder, sys)
  | some o =>
    if o.status ≠ .PENDING then (.error .AlreadyAccepted, sys)
    else if (ovLookup sys.overlay batchId).isSome then
      (.error .AlreadyExists, sys)
    else
      (.ok (seedProgress (cat o.orderType) o.orderType),
        ⟨(batchId, seedProgress (cat o.orderType) o.orderType) :: sys.overlay,
          stSet sys.store orderId
            { o with status := .IN_PROGRESS, batchId := some batchId }⟩)

/-- Modelled from the spec: reconstruction of one order's Progress State by
the Hydration Service — any step whose completion timestamp is recorded in
the persisted record is COMPLETED with that timestamp, all others PENDING
(spec §4.2). -/
def hydrateEntry (cat : String → List StepDef) (o : OrderRec) : ProgressState :=
  ⟨o.orderType,
    (List.range (cat o.orderType).length).map fun i =>
      match o.stepTs.getD i none with
      | some t => ⟨.COMPLETED, some t, ""⟩
      | none => ⟨.PENDING, none, ""⟩⟩

/-- Modelled from the spec: the Hydration Service — scan the Persistent Order
Store for every IN_PROGRESS order and add a reconstructed Progress State to
the overlay for any order whose batch is not already present (spec §4.2). -/
def hydrate (cat : String → List StepDef) : Store → Overlay → Overlay
  | [], ov => ov
  | q :: rest, ov =>
    hydrate cat rest
      (match q.2.status, q.2.batchId with
       | .IN_PROGRESS, some b =>
         if (ovLookup ov b).isSome then ov
         else (b, hydrateEntry cat q.2) :: ov
       | _, _ => ov)

/-! ### Analytics Aggregator (spec §4.4), modelled from the spec -/

/-- Modelled from the spec: a completed order as consumed by the Analytics
Aggregator — placement timestamp and per-step completion timestamps. -/
structure CompletedRec where
  placedTs : Int
  stepTs : List Int
deriving DecidableEq, Repr

/-- Nominal duration of catalog step `i`, as an integer. -/
def nominalAt (catalog : List StepDef) (i : Nat) : Int :=
  ((catalog.getD i ⟨"", 0⟩).nominal : Int)

/-- Modelled from the spec: actual duration of step `i` — the difference
between the step's completion timestamp and its predecessor's, or order
placement for the first step (spec §4.4). -/
def actualDur (r : CompletedRec) (i : Nat) : Int :=
  r.stepTs.getD i 0 - (if i = 0 then r.placedTs else r.stepTs.getD (i - 1) 0)

/-- Whether an order met every step's nominal duration (the OTIF numerator
predicate, spec §4.4). -/
def onTime (catalog : List StepDef) (r : CompletedRec) : Bool :=
  (List.range catalog.length).all fun i => actualDur r i ≤ nominalAt catalog i

/-- Modelled from the spec: OTIF — the count of orders in which every step's
actual duration is at most its nominal duration, divided by the total number
of completed orders, expressed as a percentage (spec §4.4). -/
def otif (catalog : List StepDef) (orders : List CompletedRec) : ℚ :=
  if orders.length = 0 then 0
  else ((orders.countP (onTime catalog)) : ℚ) * 100 / (orders.length : ℚ)

/-- Schedule variance of step `i` for one order: actual minus nominal
duration (spec §4.4). -/
def stepVariance (catalog : List StepDef) (r : CompletedRec) (i : Nat) : Int :=
  actualDur r i - nominalAt catalog i

/-- Modelled from the spec: per-step variance averaged across all completed
orders of the supplier (spec §4.4). -/
def avgVariance (catalog : List StepDef) (orders : List CompletedRec)
    (i : Nat) : ℚ :=
  if orders.length = 0 then 0
  else (((orders.map fun r => stepVariance catalog r i).sum : Int) : ℚ) /
    (orders.length : ℚ)

/-- Left-to-right scan of step positions `0, …, n-1` keeping the position of
strictly greatest value; replacement only on strictly greater value, so the
earliest position wins ties, and only positive values are ever selected. -/
def bestStep (f : Nat → ℚ) : Nat → Option (Nat × ℚ)
  | 0 => none
  | n + 1 =>
    match bestStep f n with
    | none => if 0 < f n then some (n, f n) else none
    | some (j, w) => if w < f n then some (n, f n) else some (j, w)

/-- Modelled from the spec: the bottleneck — the step with the highest
positive average variance, ties broken by step catalog order with the
earlier step winning (spec §4.4). -/
def bottleneck (catalog : List StepDef) (orders : List CompletedRec) :
    Option (Nat × ℚ) :=
  bestStep (avgVariance catalog orders) catalog.length

/-- Modelled from the spec: the Supplier Performance Snapshot — OTIF
percentage, per-step average variance, and ranked bottleneck step (spec §3). -/
structure Snapshot where
  otifPct : ℚ
  stepVariances : List ℚ
  bottleneckStep : Option (Nat × ℚ)
deriving DecidableEq, Repr

/-- The COMPLETED orders of a supplier in the persistent store, as analytics
records (missing per-step timestamps default to 0). -/
def completedRecsOf (st : Store) (sup : String) : List CompletedRec :=
  st.filterMap fun q =>
    if q.2.supplierId = sup ∧ q.2.status = .COMPLETED then
      some ⟨(q.2.placedTs : Int), q.2.stepTs.map fun t => ((t.getD 0 : Nat) : Int)⟩
    else none

/-- Modelled from the spec: the supplier performance read — recomputes a
fresh Supplier Performance Snapshot from the full set of that supplier's
COMPLETED orders; a supplier with zero COMPLETED orders yields a well-defined
zero-state snapshot, not an error (spec §6). -/
def supplierPerformance (catalog : List StepDef) (st : Store) (sup : String) :
    Snapshot :=
  ⟨otif catalog (completedRecsOf st sup),
    (List.range catalog.length).map (avgVariance catalog (completedRecsOf st sup)),
    bottleneck catalog (completedRecsOf st sup)⟩

/-! ### Frontend auth/persona contexts, embedded from the source -/

/-- The `User` shape built by `AuthProvider` from a decoded token
(`src/unnamed/part_000`). -/
structure AuthUser where
  email : String
  role : String
  company_name : String
  user_id : String
deriving DecidableEq, Repr

/-- The fields of a decoded JWT that `AuthProvider` reads
(`src/unnamed/part_000`): `exp` is in seconds. -/
structure DecodedToken where
  exp : Nat
  sub : String
  role : String
  company : String
  user_id : String
deriving DecidableEq, Repr

/-- The provider's observable state: the `user` and `token` React state plus
the `token` key of `localStorage` (`src/unnamed/part_000`). -/
structure AuthState where
  user : Option AuthUser
  token : Option String
  storage : Option String
deriving DecidableEq, Repr

/-- `logout` from `src/unnamed/part_000` lines 76–80: removes the stored
token and clears both `token` and `user`. -/
def logout : AuthState → AuthState :=
  fun _ => ⟨none, none, none⟩

/-- The `User` built from a decoded token (`src/unnamed/part_000`
lines 38–43 and 63–68). -/
def userOf (d : DecodedToken) : AuthUser :=
  ⟨d.sub, d.role, d.company, d.user_id⟩

/-- The `AuthProvider` mount effect (`src/unnamed/part_000` lines 27–50):
if a token is stored, decode it (`decode tok = none` models `jwtDecode`
throwing); an undecodable or expired token (`exp * 1000 < now`) triggers
`logout`; otherwise `token` and `user` are set from the decoded claims. -/
def mountEffect (decode : String → Option DecodedToken) (now : Nat)
    (s : AuthState) : AuthState :=
  match s.storage with
  | none => s
  | some tok =>
    match decode tok with
    | none => logout s
    | some d =>
      if d.exp * 1000 < now then logout s
      else { s with token := some tok, user := some (userOf d) }

/-- `useAuth` from `src/unnamed/part_000` lines 89–93: throws when the
context is null, returns the context value otherwise. -/
def useAuth {α : Type} (context : Option α) : Except String α :=
  match context with
  | none => .error "useAuth must be used within AuthProvider"
  | some c => .ok c

/-- `usePersona` from `src/unnamed/part_001` lines 32–38: throws when the
context is undefined, returns the context value otherwise. -/
def usePersona {α : Type} (context : Option α) : Except String α :=
  match context with
  | none => .error "usePersona must be used within a PersonaProvider"
  | some c => .ok c

/-! ### Basic lemmas about the overlay and progress states -/

/-- The key–value pair found by `ovLookup` is a member of the overlay. -/
theorem ovLookup_mem {ov : Overlay} {b : String} {ps : ProgressState}
    (h : ovLookup ov b = some ps) : (b, ps) ∈ ov := by
  induction ov with
  | nil => simp [ovLookup] at h
  | cons q rest ih =>
    rw [ovLookup] at h
    split at h
    · next heq =>
      obtain rfl : q.2 = ps := Option.some.inj h
      exact heq ▸ List.mem_cons_self q rest
    · exact List.mem_cons_of_mem q (ih h)

/-- After updating batch `b`, looking up `b` yields the new value (provided
`b` was present). -/
theorem ovLookup_ovUpdate {ov : Overlay} {b : String} {ps ps' : ProgressState}
    (h : ovLookup ov b = some ps) :
    ovLookup (ovUpdate ov b ps') b = some ps' := by
  induction ov with
  | nil => simp [ovLookup] at h
  | cons q rest ih =>
    rw [ovLookup] at h
    rw [ovUpdate, List.map_cons]
    split at h
    · next heq => simp [ovLookup, heq]
    · next hne =>
      rw [if_neg hne]
      rw [ovLookup, if_neg hne]
      exact ih h

/-- Members of an updated overlay carry either the new value or an old one. -/
theorem mem_ovUpdate {ov : Overlay} {b : String} {ps : ProgressState}
    {q : String × ProgressState} (h : q ∈ ovUpdate ov b ps) :
    q.2 = ps ∨ q ∈ ov := by
  rw [ovUpdate] at h
  obtain ⟨r, hr, hq⟩ := List.mem_map.mp h
  by_cases hb : r.1 = b
  · rw [if_pos hb] at hq; left; rw [← hq]
  · rw [if_neg hb] at hq; right; rw [← hq]; exact hr

/-- A resolved step index is within the catalog. -/
theorem resolveStep_lt {catalog : List StepDef} {s : String} {i : Nat}
    (h : resolveStep catalog s = some i) : i < catalog.length :=
  (List.findIdx?_eq_some_iff_findIdx_eq.mp h).1

/-- `markStep` preserves the order type. -/
theorem markStep_orderType (ps : ProgressState) (i now : Nat) (p : String) :
    (markStep ps i now p).orderType = ps.orderType := rfl

/-- `markStep` preserves the number of steps. -/
theorem markStep_length (ps : ProgressState) (i now : Nat) (p : String) :
    (markStep ps i now p).steps.length = ps.steps.length :=
  List.length_set ..

/-- Marking an in-range step makes it COMPLETED. -/
theorem stepCompleted_markStep_self {ps : ProgressState} {i : Nat}
    (h : i < ps.steps.length) (now : Nat) (p : String) :
    stepCompleted (markStep ps i now p) i = true := by
  rw [stepCompleted, markStep]
  simp [List.getElem?_set, h]

/-- Marking a step never un-completes another. -/
theorem stepCompleted_markStep_mono {ps : ProgressState} {j : Nat}
    (h : stepCompleted ps j = true) (i now : Nat) (p : String) :
    stepCompleted (markStep ps i now p) j = true := by
  rw [stepCompleted, markStep] at *
  simp only [List.getElem?_set]
  by_cases hij : i = j
  · subst hij
    by_cases hlt : i < ps.steps.length
    · simp [hlt]
    · rw [List.getElem?_eq_none (Nat.le_of_not_lt hlt)] at h
      exact absurd h (by simp)
  · simpa [hij] using h

/-- Marking step `i` leaves any other position unchanged. -/
theorem stepCompleted_markStep_ne {ps : ProgressState} {i j : Nat}
    (h : j ≠ i) (now : Nat) (p : String) :
    stepCompleted (markStep ps i now p) j = stepCompleted ps j := by
  rw [stepCompleted, stepCompleted, markStep]
  simp only [List.getElem?_set]
  rw [if_neg (Ne.symm h)]

/-- In an all-COMPLETED Progress State every in-range position is COMPLETED. -/
theorem stepCompleted_of_allCompleted {ps : ProgressState} {i : Nat}
    (h : allCompleted ps = true) (hi : i < ps.steps.length) :
    stepCompleted ps i = true := by
  rw [allCompleted, List.all_eq_true] at h
  rw [stepCompleted]
  have hmem : ps.steps[i] ∈ ps.steps := List.getElem_mem hi
  have := h _ hmem
  rw [List.getElem?_eq_getElem hi]
  simpa using this

/-- The strict left-to-right ordering invariant of a Progress State
(spec §3, Progress State invariant): a COMPLETED entry's positional
predecessor is COMPLETED. -/
def Ordered (ps : ProgressState) : Prop :=
  ∀ i : Nat, stepCompleted ps (i + 1) = true → stepCompleted ps i = true

/-- A freshly seeded Progress State is trivially ordered (all PENDING). -/
theorem ordered_seedProgress (catalog : List StepDef) (ot : String) :
    Ordered (seedProgress catalog ot) := by
  intro i h
  rw [stepCompleted, seedProgress] at h
  rw [List.getElem?_map] at h
  cases hgt : catalog[i + 1]? with
  | none => rw [hgt] at h; simp at h
  | some d => rw [hgt] at h; simp at h

/-- Marking a step whose predecessor is COMPLETED (or which is the first
step) preserves the ordering invariant. -/
theorem ordered_markStep {ps : ProgressState} {i : Nat}
    (hord : Ordered ps)
    (hpred : i = 0 ∨ stepCompleted ps (i - 1) = true)
    (now : Nat) (p : String) : Ordered (markStep ps i now p) := by
  intro j hj
  by_cases hji : j + 1 = i
  · -- the newly marked step: its predecessor was COMPLETED by the guard
    rcases hpred with h0 | hc
    · omega
    · have : i - 1 = j := by omega
      exact stepCompleted_markStep_mono (this ▸ hc) i now p
  · rw [stepCompleted_markStep_ne hji now p] at hj
    exact stepCompleted_markStep_mono (hord j hj) i now p

/-- Well-formedness of the system state: every overlay entry's step sequence
mirrors the Step Catalog for its order's type (spec §3, Progress State). -/
def SysWf (cat : String → List StepDef) (sys : Sys) : Prop :=
  ∀ q ∈ sys.overlay, q.2.steps.length = (cat q.2.orderType).length

instance (cat : String → List StepDef) (sys : Sys) :
    Decidable (SysWf cat sys) :=
  decidable_of_iff
    (∀ q ∈ sys.overlay, q.2.steps.length = (cat q.2.orderType).length)
    Iff.rfl

/-- Orders rewritten by the flush path carry COMPLETED status and the finish
timestamp. -/
theorem mem_flushCompleted {st : Store} {b : String} {ps : ProgressState}
    {now : Nat} {q : String × OrderRec}
    (h : q ∈ flushCompleted st b ps now) (hb : q.2.batchId = some b) :
    q.2.status = .COMPLETED ∧ q.2.finishTs = some now := by
  rw [flushCompleted] at h
  obtain ⟨r, _, hq⟩ := List.mem_map.mp h
  by_cases hrb : r.2.batchId = some b
  · rw [if_pos hrb] at hq; rw [← hq]; exact ⟨rfl, rfl⟩
  · rw [if_neg hrb] at hq; rw [← hq] at hb; exact absurd hb hrb

/-- If the ordering guard of step 4 does not fire, the step is the first one
or its positional predecessor is COMPLETED. -/
theorem pred_of_not_guard {i : Nat} {ps : ProgressState}
    (h : ¬((i != 0 && !(stepCompleted ps (i - 1))) = true)) :
    i = 0 ∨ stepCompleted ps (i - 1) = true := by
  by_cases h0 : i = 0
  · exact Or.inl h0
  · right
    cases hsc : stepCompleted ps (i - 1) with
    | true => rfl
    | false => exact absurd (by simp [h0, hsc]) h

/-! ### C1: steps complete strictly in catalog order -/

/-- C1: ingestion preserves the strict left-to-right completion invariant of
every batch's Progress State — after any `applyEvent`, no entry is COMPLETED
unless its positional predecessor is — and an event naming a step whose
positional predecessor is not yet COMPLETED is rejected with
`OutOfOrderStep`, leaving the state untouched (not queued or reordered). -/
theorem ingestion_strict_order (cat : String → List StepDef) (sys : Sys)
    (b s p : String) (now : Nat) (r : Except Err ProgressState) (sys' : Sys)
    (happly : applyEvent cat sys b s p now = (r, sys'))
    (hord : ∀ q ∈ sys.overlay, Ordered q.2) :
    (∀ q ∈ sys'.overlay, Ordered q.2) ∧
    (∀ ps i, ovLookup sys.overlay b = some ps →
      resolveStep (cat ps.orderType) s = some i →
      stepCompleted ps i = false →
      (i != 0 && !(stepCompleted ps (i - 1))) = true →
      r = .error .OutOfOrderStep ∧ sys' = sys) := by
  constructor
  · rw [applyEvent] at happly
    cases hov : ovLookup sys.overlay b with
    | none =>
      simp only [hov] at happly
      injection happly with _ hB
      exact hB ▸ hord
    | some ps0 =>
      simp only [hov] at happly
      cases hres : resolveStep (cat ps0.orderType) s with
      | none =>
        simp only [hres] at happly
        injection happly with _ hB
        exact hB ▸ hord
      | some i0 =>
        simp only [hres] at happly
        split at happly
        · injection happly with _ hB
          exact hB ▸ hord
        · next hsc =>
          split at happly
          · injection happly with _ hB
            exact hB ▸ hord
          · next hguard =>
            have hpred := pred_of_not_guard hguard
            have hmark : Ordered (markStep ps0 i0 now p) :=
              ordered_markStep (hord _ (ovLookup_mem hov)) hpred now p
            split at happly <;>
            · injection happly with _ hB
              intro q hq
              rw [← hB] at hq
              rcases mem_ovUpdate hq with hqe | hqm
              · rw [hqe]; exact hmark
              · exact hord q hqm
  · intro ps i hps hresolve hnc hguard
    rw [applyEvent] at happly
    simp only [hps, hresolve, hnc, hguard] at happly
    simp only [Bool.false_eq_true, if_false, if_true] at happly
    injection happly with hA hB
    exact ⟨hA.symm, hB.symm⟩

/-! ### C2: webhook ingestion is idempotent -/

/-- C2: applying the same `(batchId, stepName)` event twice yields, after the
second call, exactly the result and system state of the first call — the
resolved step being already COMPLETED, the repeat is accepted as a no-op
returning the Progress State unchanged, with no double-counting and no second
flush. -/
theorem ingestion_idempotent (cat : String → List StepDef) (sys : Sys)
    (b s p : String) (now now' : Nat) (ps' : ProgressState) (sys' : Sys)
    (hwf : SysWf cat sys)
    (happly : applyEvent cat sys b s p now = (.ok ps', sys')) :
    applyEvent cat sys' b s p now' = (.ok ps', sys') := by
  rw [applyEvent] at happly
  cases hov : ovLookup sys.overlay b with
  | none =>
    simp only [hov] at happly
    injection happly with hA _
    exact absurd hA (by simp)
  | some ps0 =>
    simp only [hov] at happly
    cases hres : resolveStep (cat ps0.orderType) s with
    | none =>
      simp only [hres] at happly
      injection happly with hA _
      exact absurd hA (by simp)
    | some i0 =>
      simp only [hres] at happly
      have hlen : ps0.steps.length = (cat ps0.orderType).length :=
        hwf _ (ovLookup_mem hov)
      have hi : i0 < ps0.steps.length := hlen ▸ resolveStep_lt hres
      split at happly
      · next hsc =>
        injection happly with hA hB
        injection hA with hA'
        subst hA'
        subst hB
        rw [applyEvent]
        simp only [hov, hres]
        rw [if_pos hsc]
      · next hsc =>
        split at happly
        · injection happly with hA _
          exact absurd hA (by simp)
        · split at happly <;>
          · injection happly with hA hB
            injection hA with hA'
            subst hA'
            subst hB
            rw [applyEvent]
            simp only [ovLookup_ovUpdate hov]
            simp only [markStep_orderType, hres]
            rw [if_pos (stepCompleted_markStep_self hi now p)]

/-! ### C3: auto-completion happens exactly once and synchronously -/

/-- C3: a successful `applyEvent` that completes the batch's final step
returns only after the persistent flush — in the returned system state every
store record owning this batch already carries status COMPLETED and the
finish timestamp of this event — and once all steps are COMPLETED any
further event for the batch leaves both the Progress State and the system
state entirely unchanged, so the completing write happens exactly once
regardless of duplicate delivery. -/
theorem autocompletion_once (cat : String → List StepDef) (sys : Sys)
    (b s p : String) (now : Nat) (ps ps' : ProgressState) (sys' : Sys)
    (hwf : SysWf cat sys)
    (hov : ovLookup sys.overlay b = some ps)
    (happly : applyEvent cat sys b s p now = (.ok ps', sys')) :
    (allCompleted ps' = true → allCompleted ps = false →
      ∀ q ∈ sys'.store, q.2.batchId = some b →
        q.2.status = .COMPLETED ∧ q.2.finishTs = some now) ∧
    (allCompleted ps = true → ps' = ps ∧ sys' = sys) := by
  rw [applyEvent] at happly
  simp only [hov] at happly
  cases hres : resolveStep (cat ps.orderType) s with
  | none =>
    simp only [hres] at happly
    injection happly with hA _
    exact absurd hA (by simp)
  | some i =>
    simp only [hres] at happly
    have hlen : ps.steps.length = (cat ps.orderType).length :=
      hwf _ (ovLookup_mem hov)
    have hi : i < ps.steps.length := hlen ▸ resolveStep_lt hres
    split at happly
    · next hsc =>
      injection happly with hA hB
      injection hA with hA'
      subst hA'
      subst hB
      refine ⟨fun hc' hc => absurd hc' (by rw [hc]; simp), fun _ => ⟨rfl, rfl⟩⟩
    · next hsc =>
      have hnotall : ¬(allCompleted ps = true) := fun hall =>
        hsc (stepCompleted_of_allCompleted hall hi)
      split at happly
      · injection happly with hA _
        exact absurd hA (by simp)
      · split at happly
        · next hall' =>
          injection happly with hA hB
          injection hA with hA'
          subst hA'
          subst hB
          refine ⟨fun _ _ q hq hqb => mem_flushCompleted hq hqb,
            fun hall => absurd hall hnotall⟩
        · next hall' =>
          injection happly with hA hB
          injection hA with hA'
          subst hA'
          subst hB
          refine ⟨fun hc' _ => absurd hc' hall',
            fun hall => absurd hall hnotall⟩

/-! ### C4: rejection errors are atomic -/

/-- C4: whenever webhook ingestion rejects an event (`UnknownBatch`,
`UnknownStep`, `OutOfOrderStep`), and likewise whenever `seed` or the
acceptance action fails (`AlreadyExists`, `AlreadyAccepted`, unknown order),
the error is reported synchronously and the returned system state — overlay
and persistent store — is exactly the input state, unmutated. -/
theorem rejection_atomic (cat : String → List StepDef)
    (sys₁ sys₂ sys₃ sysA sysS sysC : Sys)
    (b s p bid₂ ot oid bid₃ : String) (now : Nat) (e₁ e₂ e₃ : Err)
    (h₁ : applyEvent cat sys₁ b s p now = (.error e₁, sysA))
    (h₂ : seed cat sys₂ bid₂ ot = (.error e₂, sysS))
    (h₃ : accept cat sys₃ oid bid₃ = (.error e₃, sysC)) :
    sysA = sys₁ ∧ sysS = sys₂ ∧ sysC = sys₃ := by
  refine ⟨?_, ?_, ?_⟩
  · rw [applyEvent] at h₁
    cases hov : ovLookup sys₁.overlay b with
    | none =>
      simp only [hov] at h₁
      injection h₁ with _ hB
      exact hB.symm
    | some ps =>
      simp only [hov] at h₁
      cases hres : resolveStep (cat ps.orderType) s with
      | none =>
        simp only [hres] at h₁
        injection h₁ with _ hB
        exact hB.symm
      | some i =>
        simp only [hres] at h₁
        split at h₁
        · injection h₁ with hA; exact absurd hA (by simp)
        · split at h₁
          · injection h₁ with _ hB; exact hB.symm
          · split at h₁ <;>
              (injection h₁ with hA; exact absurd hA (by simp))
  · rw [seed] at h₂
    split at h₂
    · injection h₂ with _ hB; exact hB.symm
    · injection h₂ with hA; exact absurd hA (by simp)
  · rw [accept] at h₃
    cases hst : stLookup sys₃.store oid with
    | none =>
      simp only [hst] at h₃
      injection h₃ with _ hB
      exact hB.symm
    | some o =>
      simp only [hst] at h₃
      split at h₃
      · injection h₃ with _ hB; exact hB.symm
      · split at h₃
        · injection h₃ with _ hB; exact hB.symm
        · injection h₃ with hA; exact absurd hA (by simp)

/-! ### C5: hydration round-trip fidelity -/

/-- Hydration never disturbs an overlay entry that is already present. -/
theorem hydrate_lookup_keep (cat : String → List StepDef) :
    ∀ (st : Store) (ov : Overlay) {b : String} {v : ProgressState},
      ovLookup ov b = some v →
      ovLookup (hydrate cat st ov) b = some v := by
  intro st
  induction st with
  | nil => intro ov b v h; exact h
  | cons q rest ih =>
    intro ov b v h
    rw [hydrate]
    apply ih
    split
    · next b' _ _ =>
      by_cases hs : (ovLookup ov b').isSome
      · rw [if_pos hs]; exact h
      · rw [if_neg hs]
        rw [ovLookup]
        by_cases hbb : b' = b
        · subst hbb
          exact absurd (by rw [h]; rfl) hs
        · rw [if_neg hbb]; exact h
    · exact h

/-- Hydration installs the reconstructed Progress State for an IN_PROGRESS
order whose batch is not yet in the overlay (unique owner of that batch). -/
theorem hydrate_lookup_found (cat : String → List StepDef) {o : OrderRec}
    {b : String} (hso : o.status = .IN_PROGRESS) (hbo : o.batchId = some b) :
    ∀ (st : Store) (ov : Overlay),
      (∃ oid, (oid, o) ∈ st) →
      (∀ q ∈ st, q.2.status = .IN_PROGRESS → q.2.batchId = some b → q.2 = o) →
      ovLookup ov b = none →
      ovLookup (hydrate cat st ov) b = some (hydrateEntry cat o) := by
  intro st
  induction st with
  | nil =>
    intro ov hmem _ _
    obtain ⟨oid, hmem⟩ := hmem
    simp at hmem
  | cons q rest ih =>
    intro ov hmem huniq hov
    rw [hydrate]
    by_cases hcap : q.2.status = .IN_PROGRESS ∧ q.2.batchId = some b
    · have hqo : q.2 = o := huniq q (List.mem_cons_self q rest) hcap.1 hcap.2
      simp only [hcap.1, hcap.2]
      rw [if_neg (by rw [hov]; simp)]
      exact hydrate_lookup_keep cat rest _ (by rw [ovLookup, if_pos rfl, hqo])
    · obtain ⟨oid, hmem⟩ := hmem
      have hmem' : (oid, o) ∈ rest := by
        rcases List.mem_cons.mp hmem with heq | h
        · exact absurd ⟨by rw [← heq]; exact hso, by rw [← heq]; exact hbo⟩ hcap
        · exact h
      have hov' :
          ovLookup
            (match q.2.status, q.2.batchId with
             | .IN_PROGRESS, some b' =>
               if (ovLookup ov b').isSome then ov
               else (b', hydrateEntry cat q.2) :: ov
             | _, _ => ov) b = none := by
        split
        · next b' hst hbt =>
          by_cases hs : (ovLookup ov b').isSome
          · rw [if_pos hs]; exact hov
          · rw [if_neg hs]
            rw [ovLookup]
            by_cases hbb : b' = b
            · exact absurd ⟨hst, hbb ▸ hbt⟩ hcap
            · rw [if_neg hbb]; exact hov
        · exact hov
      exact ih _ ⟨oid, hmem'⟩
        (fun q' hq' => huniq q' (List.mem_cons_of_mem _ hq')) hov'

/-- C5: for a persisted IN_PROGRESS order with partial step completion
timestamps, running Hydration on an empty overlay and reading the overlay
yields exactly the persisted completed steps — each entry of the
reconstructed Progress State is COMPLETED with its persisted timestamp when
that timestamp is recorded, and PENDING otherwise. -/
theorem hydration_roundtrip (cat : String → List StepDef) (st : Store)
    (oid : String) (o : OrderRec) (b : String)
    (hmem : (oid, o) ∈ st) (hso : o.status = .IN_PROGRESS)
    (hbo : o.batchId = some b)
    (huniq : ∀ q ∈ st, q.2.status = .IN_PROGRESS → q.2.batchId = some b →
      q.2 = o) :
    ovLookup (hydrate cat st []) b = some (hydrateEntry cat o) ∧
    ∀ i < (cat o.orderType).length,
      (hydrateEntry cat o).steps[i]? =
        some (match o.stepTs.getD i none with
              | some t => ⟨.COMPLETED, some t, ""⟩
              | none => ⟨.PENDING, none, ""⟩) := by
  constructor
  · exact hydrate_lookup_found cat hso hbo st [] ⟨oid, hmem⟩ huniq rfl
  · intro i hi
    rw [hydrateEntry]
    simp only [List.getElem?_map, List.getElem?_range hi, Option.map_some']

/-! ### C6: OTIF bounds and monotonicity -/

/-- C6: OTIF — the share of completed orders meeting every step's nominal
duration, as a percentage — always lies in `[0, 100]`, and appending an
order with a late step (some actual duration exceeding its nominal) never
increases it. -/
theorem otif_bounds (catalog : List StepDef) (orders : List CompletedRec)
    (r : CompletedRec)
    (hlate : ∃ i < catalog.length, nominalAt catalog i < actualDur r i) :
    0 ≤ otif catalog orders ∧ otif catalog orders ≤ 100 ∧
    otif catalog (orders ++ [r]) ≤ otif catalog orders := by
  have hnot : onTime catalog r = false := by
    rw [onTime, List.all_eq_false]
    obtain ⟨i, hi, hlt⟩ := hlate
    exact ⟨i, List.mem_range.mpr hi, by simpa using not_le.mpr hlt⟩
  have h0 : ∀ os : List CompletedRec, 0 ≤ otif catalog os := by
    intro os
    rw [otif]
    split
    · exact le_refl 0
    · positivity
  refine ⟨h0 orders, ?_, ?_⟩
  · rw [otif]
    split
    · norm_num
    · next hlen =>
      have hn : 0 < (orders.length : ℚ) := by
        exact_mod_cast Nat.pos_of_ne_zero hlen
      rw [div_le_iff₀ hn]
      have hc : (orders.countP (onTime catalog) : ℚ) ≤ (orders.length : ℚ) := by
        exact_mod_cast List.countP_le_length (onTime catalog)
      calc (orders.countP (onTime catalog) : ℚ) * 100
          ≤ (orders.length : ℚ) * 100 :=
            mul_le_mul_of_nonneg_right hc (by norm_num)
        _ = 100 * (orders.length : ℚ) := mul_comm _ _
  · have hcount : (orders ++ [r]).countP (onTime catalog) =
        orders.countP (onTime catalog) := by
      rw [List.countP_append]
      simp [List.countP_cons, hnot]
    rcases Nat.eq_zero_or_pos orders.length with hz | hpos
    · have hnil : orders = [] := List.length_eq_zero.mp hz
      subst hnil
      rw [otif, otif]
      simp [List.countP_cons, hnot]
    · have hlen1 : orders.length ≠ 0 := Nat.pos_iff_ne_zero.mp hpos
      have hlen2 : (orders ++ [r]).length ≠ 0 := by simp
      rw [otif, otif, if_neg hlen2, if_neg hlen1, hcount]
      have hq1 : (0:ℚ) < (orders.length : ℚ) := by exact_mod_cast hpos
      have hq2 : (orders.length : ℚ) ≤ ((orders ++ [r]).length : ℚ) := by
        have hh : orders.length ≤ (orders ++ [r]).length := by simp
        exact_mod_cast hh
      exact div_le_div_of_nonneg_left (by positivity) hq1 hq2

/-! ### C7: bottleneck selection is deterministic -/

/-- When the scan returns nothing, no scanned position has positive value. -/
theorem bestStep_none {f : Nat → ℚ} :
    ∀ {n : Nat}, bestStep f n = none → ∀ j < n, f j ≤ 0 := by
  intro n
  induction n with
  | zero => intro _ j hj; exact absurd hj (Nat.not_lt_zero j)
  | succ n ih =>
    intro h j hj
    cases hb : bestStep f n with
    | none =>
      simp only [bestStep, hb] at h
      by_cases hpos : 0 < f n
      · rw [if_pos hpos] at h; exact absurd h (by simp)
      · rcases Nat.lt_succ_iff_lt_or_eq.mp hj with hlt | heq
        · exact ih hb j hlt
        · exact heq ▸ le_of_not_lt hpos
    | some q =>
      obtain ⟨j0, w⟩ := q
      simp only [bestStep, hb] at h
      split at h <;> exact absurd h (by simp)

/-- Characterisation of the scan: the returned position carries a positive
value, no scanned position exceeds it, and any tie lies at or after it. -/
theorem bestStep_spec {f : Nat → ℚ} :
    ∀ {n i : Nat} {v : ℚ}, bestStep f n = some (i, v) →
      i < n ∧ v = f i ∧ 0 < v ∧
      ∀ j < n, f j ≤ v ∧ (f j = v → i ≤ j) := by
  intro n
  induction n with
  | zero =>
    intro i v h
    simp only [bestStep] at h
    exact Option.noConfusion h
  | succ n ih =>
    intro i v h
    cases hb : bestStep f n with
    | none =>
      simp only [bestStep, hb] at h
      by_cases hpos : 0 < f n
      · rw [if_pos hpos] at h
        injection h with h'
        injection h' with h1 h2
        subst h1; subst h2
        refine ⟨Nat.lt_succ_self _, rfl, hpos, ?_⟩
        intro j hj
        rcases Nat.lt_succ_iff_lt_or_eq.mp hj with hlt | heq
        · have hle := bestStep_none hb j hlt
          exact ⟨le_trans hle (le_of_lt hpos),
            fun he => absurd (he ▸ hle) (not_le.mpr hpos)⟩
        · subst heq; exact ⟨le_refl _, fun _ => le_refl _⟩
      · rw [if_neg hpos] at h; exact absurd h (by simp)
    | some q =>
      obtain ⟨j0, w⟩ := q
      obtain ⟨hj0, hw, hwpos, hall⟩ := ih hb
      simp only [bestStep, hb] at h
      by_cases hlt : w < f n
      · rw [if_pos hlt] at h
        injection h with h'
        injection h' with h1 h2
        subst h1; subst h2
        refine ⟨Nat.lt_succ_self _, rfl, lt_trans hwpos hlt, ?_⟩
        intro j hj
        rcases Nat.lt_succ_iff_lt_or_eq.mp hj with hl | heq
        · have hjw := (hall j hl).1
          exact ⟨le_trans hjw (le_of_lt hlt),
            fun he => absurd (he ▸ hjw) (not_le.mpr hlt)⟩
        · subst heq; exact ⟨le_refl _, fun _ => le_refl _⟩
      · rw [if_neg hlt] at h
        injection h with h'
        injection h' with h1 h2
        subst h1; subst h2
        refine ⟨Nat.lt_succ_of_lt hj0, hw, hwpos, ?_⟩
        intro j hj
        rcases Nat.lt_succ_iff_lt_or_eq.mp hj with hl | heq
        · exact hall j hl
        · subst heq
          exact ⟨le_of_not_lt hlt, fun _ => le_of_lt hj0⟩

/-- C7: the bottleneck returned by the Analytics Aggregator is the catalog
step with the highest positive average variance, and when two steps tie on
average variance the one earlier in catalog order wins — the returned index
is at most every tying index. -/
theorem bottleneck_deterministic (catalog : List StepDef)
    (orders : List CompletedRec) (i : Nat) (v : ℚ)
    (h : bottleneck catalog orders = some (i, v)) :
    i < catalog.length ∧ v = avgVariance catalog orders i ∧ 0 < v ∧
    ∀ j < catalog.length,
      avgVariance catalog orders j ≤ v ∧
      (avgVariance catalog orders j = v → i ≤ j) :=
  bestStep_spec h

/-! ### C8: supplier performance read on zero completed orders -/

/-- A scan over nowhere-positive values selects nothing. -/
theorem bestStep_nonpos {f : Nat → ℚ} (hf : ∀ j, f j ≤ 0) :
    ∀ n, bestStep f n = none := by
  intro n
  induction n with
  | zero => rfl
  | succ n ih => rw [bestStep, ih, if_neg (not_lt.mpr (hf n))]

/-- C8: a supplier with zero COMPLETED orders gets a well-defined zero-state
Supplier Performance Snapshot — OTIF 0 (the zero-total quotient does not
fail), all per-step average variances 0, and no bottleneck — rather than an
error. -/
theorem supplier_zero_state (catalog : List StepDef) (st : Store)
    (sup : String) (h : completedRecsOf st sup = []) :
    supplierPerformance catalog st sup =
      ⟨0, (List.range catalog.length).map (fun _ => (0 : ℚ)), none⟩ := by
  have h2 : ∀ i, avgVariance catalog [] i = 0 := by
    intro i; rw [avgVariance]; simp
  have h1 : otif catalog [] = 0 := by rw [otif]; simp
  have h3 : bottleneck catalog [] = none :=
    bestStep_nonpos (fun j => le_of_eq (h2 j)) _
  rw [supplierPerformance, h, h1, h3]
  have h4 : (List.range catalog.length).map (avgVariance catalog []) =
      (List.range catalog.length).map (fun _ => (0 : ℚ)) :=
    List.map_congr_left fun a _ => h2 a
  rw [h4]

/-! ### C9: context accessor hooks fail fast -/

/-- C9: `useAuth` with a null context and `usePersona` with an undefined
context throw, while inside a provider each hook returns exactly the
provider's context value — callers never receive null/undefined. -/
theorem context_hooks_fail_fast :
    (∀ (α : Type) (c : α), useAuth (some c) = .ok c ∧
      usePersona (some c) = .ok c) ∧
    (∀ (α : Type),
      useAuth (none : Option α) =
        .error "useAuth must be used within AuthProvider" ∧
      usePersona (none : Option α) =
        .error "usePersona must be used within a PersonaProvider") :=
  ⟨fun _ _ => ⟨rfl, rfl⟩, fun _ => ⟨rfl, rfl⟩⟩

/-! ### C10: AuthProvider never keeps an expired or undecodable token -/

/-- C10: after the mount effect, an undecodable stored token or one whose
`exp * 1000` is below the current time triggers `logout`, leaving `user` and
`token` null and the stored token removed; a non-null `user` can only arise
from a token that decoded successfully and is unexpired; and `logout` always
leaves both `user` and `token` null. -/
theorem auth_mount_guard (decode : String → Option DecodedToken) (now : Nat)
    (s : AuthState) (tok : String) (hs : s.storage = some tok) :
    (decode tok = none → mountEffect decode now s = ⟨none, none, none⟩) ∧
    (∀ d, decode tok = some d → d.exp * 1000 < now →
      mountEffect decode now s = ⟨none, none, none⟩) ∧
    (∀ u, (mountEffect decode now s).user = some u →
      ∃ d, decode tok = some d ∧ ¬ d.exp * 1000 < now ∧ u = userOf d) ∧
    (∀ s', logout s' = ⟨none, none, none⟩) := by
  refine ⟨?_, ?_, ?_, fun _ => rfl⟩
  · intro hdec
    simp only [mountEffect, hs, hdec, logout]
  · intro d hdec hexp
    simp only [mountEffect, hs, hdec, if_pos hexp, logout]
  · intro u hmount
    rw [mountEffect] at hmount
    simp only [hs] at hmount
    cases hdec : decode tok with
    | none =>
      simp only [hdec, logout] at hmount
      exact Option.noConfusion hmount
    | some d =>
      simp only [hdec] at hmount
      by_cases hexp : d.exp * 1000 < now
      · rw [if_pos hexp] at hmount; simp [logout] at hmount
      · rw [if_neg hexp] at hmount
        exact ⟨d, rfl, hexp, (Option.some.inj hmount).symm⟩

/-! ### Concrete instances exercising the theorems -/

/-- The coffee Step Catalog of the spec's §8 scenario. -/
def coffeeCatalog : List StepDef :=
  [⟨"Sourcing", 2⟩, ⟨"Processing", 3⟩, ⟨"Quality", 1⟩,
    ⟨"Logistics", 4⟩, ⟨"Delivered", 1⟩]

/-- A catalog assignment mapping every order type to the coffee catalog. -/
def catFn : String → List StepDef := fun _ => coffeeCatalog

/-- A single-step catalog, for exercising the completion flush. -/
def shortCatalog : List StepDef := [⟨"Delivered", 1⟩]

/-- A catalog assignment mapping every order type to the one-step catalog. -/
def catFn2 : String → List StepDef := fun _ => shortCatalog

/-- A freshly accepted batch `B1` with an empty store. -/
def sysW1 : Sys := ⟨[("B1", seedProgress coffeeCatalog "coffee")], []⟩

/-- The state of `sysW1` after completing step `Sourcing` at time 10. -/
def psW1 : ProgressState :=
  markStep (seedProgress coffeeCatalog "coffee") 0 10 "p"

/-- The system state of `sysW1` after the `Sourcing` event. -/
def sysW2 : Sys := ⟨[("B1", psW1)], []⟩

/-- A one-step batch `B2` whose owning order `O2` is IN_PROGRESS. -/
def sysW3 : Sys :=
  ⟨[("B2", seedProgress shortCatalog "tea")],
    [("O2", ⟨"sup-001", "tea", 0, .IN_PROGRESS, some "B2", [none], none⟩)]⟩

/-- The progress of batch `B2` after its only step completes at time 50. -/
def psW3 : ProgressState := markStep (seedProgress shortCatalog "tea") 0 50 ""

/-- The system state after batch `B2` completes: the store is flushed. -/
def sysW3' : Sys :=
  ⟨[("B2", psW3)],
    [("O2", ⟨"sup-001", "tea", 0, .COMPLETED, some "B2", [some 50],
      some 50⟩)]⟩

/-- A store holding an already-accepted (IN_PROGRESS) order `O1`. -/
def sysW4 : Sys :=
  ⟨[], [("O1", ⟨"sup-001", "coffee", 0, .IN_PROGRESS, some "B1", [], none⟩)]⟩

/-- A persisted IN_PROGRESS order with two of five steps persisted. -/
def oW5 : OrderRec :=
  ⟨"sup-001", "coffee", 0, .IN_PROGRESS, some "B1",
    [some 10, some 20, none, none, none], none⟩

/-- A store containing only `oW5`. -/
def stW5 : Store := [("O1", oW5)]

/-- A two-step catalog with unit nominal durations, for analytics. -/
def varCatalog : List StepDef := [⟨"A", 1⟩, ⟨"B", 1⟩]

/-- A completed order late on both steps (actual durations 2 and 2). -/
def lateRec : CompletedRec := ⟨0, [2, 4]⟩

/-- A completed order on time on both steps (actual durations 1 and 1). -/
def goodRec : CompletedRec := ⟨0, [1, 2]⟩

/-- A store whose only order for `sup-001` is not COMPLETED. -/
def stW8 : Store :=
  [("O1", ⟨"sup-001", "coffee", 0, .IN_PROGRESS, some "B1", [], none⟩)]

/-- A decoder under which every token fails to decode. -/
def decodeNone : String → Option DecodedToken := fun _ => none

/-- An auth state holding a stored token. -/
def sW10 : AuthState := ⟨none, none, some "tok"⟩

/-- Witness for C1 at the spec's §8 scenario: on the freshly seeded batch
`B1`, the event naming `Quality` is rejected `OutOfOrderStep` and the
ordering invariant holds for every overlay entry afterwards. -/
theorem ingestion_strict_order_witness :
    (∀ q ∈ sysW1.overlay, Ordered q.2) ∧
    (∀ ps i, ovLookup sysW1.overlay "B1" = some ps →
      resolveStep (catFn ps.orderType) "Quality" = some i →
      stepCompleted ps i = false →
      (i != 0 && !(stepCompleted ps (i - 1))) = true →
      (Except.error Err.OutOfOrderStep : Except Err ProgressState) =
        .error .OutOfOrderStep ∧ sysW1 = sysW1) :=
  ingestion_strict_order catFn sysW1 "B1" "Quality" "" 10
    (.error .OutOfOrderStep) sysW1 rfl
    (fun q hq => by
      have hqe : q = ("B1", seedProgress coffeeCatalog "coffee") := by
        simpa [sysW1] using hq
      rw [hqe]
      exact ordered_seedProgress coffeeCatalog "coffee")

/-- Witness for C2: replaying the `Sourcing` event on batch `B1` at a later
timestamp returns the same Progress State and leaves the state of the first
call untouched. -/
theorem ingestion_idempotent_witness :
    applyEvent catFn sysW2 "B1" "Sourcing" "p" 11 = (.ok psW1, sysW2) :=
  ingestion_idempotent catFn sysW1 "B1" "Sourcing" "p" 10 11 psW1 sysW2
    (by decide) rfl

/-- Witness for C3: the `Delivered` event on the one-step batch `B2` flushes
the owning order `O2` to COMPLETED with finish timestamp 50 before
returning, and the no-duplicate clause holds vacuously on the seeded
state. -/
theorem autocompletion_once_witness :
    (allCompleted psW3 = true →
      allCompleted (seedProgress shortCatalog "tea") = false →
      ∀ q ∈ sysW3'.store, q.2.batchId = some "B2" →
        q.2.status = .COMPLETED ∧ q.2.finishTs = some 50) ∧
    (allCompleted (seedProgress shortCatalog "tea") = true →
      psW3 = seedProgress shortCatalog "tea" ∧ sysW3' = sysW3) :=
  autocompletion_once catFn2 sysW3 "B2" "Delivered" "" 50
    (seedProgress shortCatalog "tea") psW3 sysW3' (by decide) rfl rfl

/-- Witness for C4: an unknown step name, a duplicate seed and a repeated
acceptance are each rejected with the input state returned unchanged. -/
theorem rejection_atomic_witness :
    sysW1 = sysW1 ∧ sysW1 = sysW1 ∧ sysW4 = sysW4 :=
  rejection_atomic catFn sysW1 sysW1 sysW4 sysW1 sysW1 sysW4
    "B1" "Nope" "" "B1" "coffee" "O1" "B9" 5
    .UnknownStep .AlreadyExists .AlreadyAccepted rfl rfl rfl

/-- Witness for C5: hydrating a store holding one IN_PROGRESS order with
steps 1–2 persisted reconstructs exactly those two completions. -/
theorem hydration_roundtrip_witness :
    ovLookup (hydrate catFn stW5 []) "B1" = some (hydrateEntry catFn oW5) ∧
    ∀ i < (catFn oW5.orderType).length,
      (hydrateEntry catFn oW5).steps[i]? =
        some (match oW5.stepTs.getD i none with
              | some t => ⟨.COMPLETED, some t, ""⟩
              | none => ⟨.PENDING, none, ""⟩) :=
  hydration_roundtrip catFn stW5 "O1" oW5 "B1" (by decide) rfl rfl (by decide)

/-- Witness for C6: with one on-time order, OTIF is within bounds and does
not increase when the late order `lateRec` is appended. -/
theorem otif_bounds_witness :
    0 ≤ otif varCatalog [goodRec] ∧ otif varCatalog [goodRec] ≤ 100 ∧
    otif varCatalog ([goodRec] ++ [lateRec]) ≤ otif varCatalog [goodRec] :=
  otif_bounds varCatalog [goodRec] lateRec ⟨0, by decide, by decide⟩

/-- Witness for C7 at a tie: both steps of `varCatalog` average variance 1 on
`lateRec`, and the bottleneck is step 0 — the earlier catalog step. -/
theorem bottleneck_deterministic_witness :
    0 < varCatalog.length ∧
    (1 : ℚ) = avgVariance varCatalog [lateRec] 0 ∧ (0 : ℚ) < 1 ∧
    ∀ j < varCatalog.length,
      avgVariance varCatalog [lateRec] j ≤ 1 ∧
      (avgVariance varCatalog [lateRec] j = 1 → 0 ≤ j) :=
  bottleneck_deterministic varCatalog [lateRec] 0 1 (by
    have h0 : stepVariance varCatalog lateRec 0 = 1 := by decide
    have h1 : stepVariance varCatalog lateRec 1 = 1 := by decide
    have g0 : avgVariance varCatalog [lateRec] 0 = 1 := by
      simp [avgVariance, h0]
    have g1 : avgVariance varCatalog [lateRec] 1 = 1 := by
      simp [avgVariance, h1]
    show bestStep (avgVariance varCatalog [lateRec]) 2 = some (0, 1)
    simp [bestStep, g0, g1])

/-- Witness for C8: `sup-001` has an order in `stW8` but no COMPLETED one,
and its performance read is the zero-state snapshot. -/
theorem supplier_zero_state_witness :
    supplierPerformance varCatalog stW8 "sup-001" =
      ⟨0, (List.range varCatalog.length).map (fun _ => (0 : ℚ)), none⟩ :=
  supplier_zero_state varCatalog stW8 "sup-001" rfl

/-- Witness for C10: with a stored token that fails to decode, the mount
effect logs the session out, clearing user, token and storage. -/
theorem auth_mount_guard_witness :
    (decodeNone "tok" = none →
      mountEffect decodeNone 0 sW10 = ⟨none, none, none⟩) ∧
    (∀ d, decodeNone "tok" = some d → d.exp * 1000 < 0 →
      mountEffect decodeNone 0 sW10 = ⟨none, none, none⟩) ∧
    (∀ u, (mountEffect decodeNone 0 sW10).user = some u →
      ∃ d, decodeNone "tok" = some d ∧ ¬ d.exp * 1000 < 0 ∧ u = userOf d) ∧
    (∀ s', logout s' = ⟨none, none, none⟩) :=
  auth_mount_guard decodeNone 0 sW10 "tok" rfl

end ChainIQ
